import Mathlib

/-!
# Verification of the minibrain burst-detection / LFP spectral pipeline

Shallow embedding of the core of `minibrain` (files `burstcounter.py`,
`lfp.py`, `lfpmanager.py`).  Sample values are modelled as exact rationals
(the Python code uses IEEE doubles; every operation the claims exercise is
a comparison or index computation, which agree with the exact model on the
concrete inputs used).  NumPy/`scipy` primitives that the code relies on
(Python slices with negative bounds, `np.where`, `scipy.signal.find_peaks`,
`scipy.integrate.simps`) are embedded with their exact index semantics.

The two detection thresholds `rms.std()*upthr` and `rms.std()*2.0`
(`burstcounter.py`, `__long_burst`) involve a square root, so they are
irrational in general; the embedded detector takes the two already-computed
threshold values as parameters, exactly as the claims state them
("the high threshold (std(envelope) * upper_multiplier)").
-/

set_option autoImplicit false

namespace Minibrain

/-! ## Python slice semantics (CPython `slice.indices`) -/

/-- `xs[a:b]` for a Python list/1-D array: step `+1`, negative bounds count
from the end, out-of-range bounds are clamped. -/
def pySlice {α : Type} (xs : List α) (a b : Int) : List α :=
  let n : Int := xs.length
  let s := if a < 0 then max 0 (n + a) else min a n
  let e := if b < 0 then max 0 (n + b) else min b n
  (xs.drop s.toNat).take (e - s).toNat

/-- `xs[a:b:-1]` for a Python list/1-D array: step `-1`, elements are taken
at indices `a', a'-1, ..., b'+1` after CPython's bound resolution for a
negative step (negative bounds count from the end, bounds at or above
`len` are clamped to `len - 1`, bounds below `-len` resolve to `-1`). -/
def pySliceRev {α : Type} (xs : List α) (a b : Int) : List α :=
  let n : Int := xs.length
  let s := if a < 0 then max (-1) (n + a) else min a (n - 1)
  let e := if b < 0 then max (-1) (n + b) else min b (n - 1)
  ((xs.drop (e + 1).toNat).take (s - e).toNat).reverse

/-- Index sequence `s, s+2, s+4, ...` strictly below `e` (Python slice with
step `+2` after bound resolution).  Fuel-structured so the kernel can
evaluate it. -/
def stride2Aux (e : Int) : Nat → Int → List Int
  | 0, _ => []
  | fuel + 1, s => if s < e then s :: stride2Aux e fuel (s + 2) else []

def stride2 (s e : Int) : List Int :=
  stride2Aux e (e - s).toNat s

/-- `xs[a:b:2]` for a Python list/1-D array (step `+2`). -/
def pySlice2 (xs : List ℚ) (a b : Int) : List ℚ :=
  let n : Int := xs.length
  let s := if a < 0 then max 0 (n + a) else min a n
  let e := if b < 0 then max 0 (n + b) else min b n
  (stride2 s e).map (fun i => xs.getD i.toNat 0)

/-! ## `scipy.signal.find_peaks`

`_local_maxima_1d`: a sample is a local maximum if it is strictly greater
than its immediate neighbours; a flat plateau followed by a strictly
smaller sample yields its midpoint.  The `height` keyword keeps the peaks
whose sample value is at least the given height. -/

/-- Inner plateau scan: starting at `j`, advance while `j < iMax` and
`x[j] == v`; returns the first index where scanning stops. -/
def plateauEnd (x : List ℚ) (iMax : Nat) (v : ℚ) : Nat → Nat → Nat
  | 0, j => j
  | fuel + 1, j =>
    if j < iMax ∧ x.getD j 0 = v then plateauEnd x iMax v fuel (j + 1) else j

/-- Main loop of `_local_maxima_1d` over indices `1 ≤ i < iMax`
(`iMax = len(x) - 1`). -/
def lmAux (x : List ℚ) (iMax : Nat) : Nat → Nat → List Nat
  | 0, _ => []
  | fuel + 1, i =>
    if i < iMax then
      if x.getD (i - 1) 0 < x.getD i 0 then
        let iAhead := plateauEnd x iMax (x.getD i 0) x.length (i + 1)
        if x.getD iAhead 0 < x.getD i 0 then
          ((i + (iAhead - 1)) / 2) :: lmAux x iMax fuel (iAhead + 1)
        else
          lmAux x iMax fuel (i + 1)
      else
        lmAux x iMax fuel (i + 1)
    else []

def localMaxima (x : List ℚ) : List Nat :=
  lmAux x (x.length - 1) x.length 1

/-- `signal.find_peaks(x, height=h)[0]`. -/
def findPeaks (x : List ℚ) (h : ℚ) : List Nat :=
  (localMaxima x).filter (fun i => decide (h ≤ x.getD i 0))

/-! ## `Burst.__long_burst` (burstcounter.py)

`highthr`/`lowthr` stand for `self.rms.std()*upthr` and
`self.rms.std()*2.0`.  `srate` is the post-decimation sampling rate
(`int(srate/60)`, an integer).  The float products `0.75*srate`,
`int(0.150*srate)` and `int(0.250*srate)` are modelled exactly as
`3*srate/4` (in a comparison), `150*srate/1000` and `250*srate/1000`. -/

/-- `np.where(np.diff(p) > .75*srate)[0]`. -/
def gapIdx (p : List Nat) (srate : Nat) : List Nat :=
  (List.range (p.length - 1)).filter
    (fun i => decide (4 * ((p.getD (i + 1) 0 : Int) - (p.getD i 0 : Int)) > 3 * (srate : Int)))

/-- `start = np.concatenate(([0], idx + 1))`. -/
def startIdxList (p : List Nat) (srate : Nat) : List Nat :=
  0 :: (gapIdx p srate).map (· + 1)

/-- `end = np.concatenate((idx, [-1]))`; the index `-1` resolves to the last
peak, `p.length - 1`. -/
def endIdxList (p : List Nat) (srate : Nat) : List Nat :=
  gapIdx p srate ++ [p.length - 1]

/-- Backward start refinement: `tmp = rms[x-int(0.150*srate):x]`,
`val, = np.where(tmp > lowthr)`, then `pstart[i] -= int(0.150*srate) - val[0]`
if `val` is non-empty (`IndexError` on `val[0]` is swallowed). -/
def refineStart (rms : List ℚ) (lowthr : ℚ) (srate : Nat) (x : Nat) : Int :=
  let wb : Nat := 150 * srate / 1000
  let tmp := pySlice rms ((x : Int) - wb) x
  match tmp.findIdx? (fun v => decide (lowthr < v)) with
  | some j => (x : Int) - ((wb : Int) - j)
  | none => x

/-- Forward end refinement: `tmp = rms[x+int(0.250*srate):x:-1]` (a reversed
slice), `val, = np.where(tmp > lowthr)`, then
`pend[i] += int(0.250*srate) - val[0]` if `val` is non-empty. -/
def refineEnd (rms : List ℚ) (lowthr : ℚ) (srate : Nat) (x : Nat) : Int :=
  let wf : Nat := 250 * srate / 1000
  let tmp := pySliceRev rms ((x : Int) + wf) x
  match tmp.findIdx? (fun v => decide (lowthr < v)) with
  | some j => (x : Int) + ((wf : Int) - j)
  | none => x

/-- `Burst.__long_burst`.  When `find_peaks` returns no peaks, the fancy
indexings `p[start]` and `p[end]` raise `IndexError`, the handlers set
`pstart = pend = np.nan`, and `np.column_stack((nan, nan))` produces a
single row; a `NaN` entry is modelled as `none`.  Otherwise both index
vectors are in range and `np.column_stack` pairs the refined starts and
ends row by row. -/
def long_burst (rms : List ℚ) (highthr lowthr : ℚ) (srate : Nat) :
    List (Option Int × Option Int) :=
  let p := findPeaks rms highthr
  if p.isEmpty then
    [(none, none)]
  else
    let pstart := ((startIdxList p srate).map (fun j => p.getD j 0)).map
      (refineStart rms lowthr srate)
    let pend := ((endIdxList p srate).map (fun j => p.getD j 0)).map
      (refineEnd rms lowthr srate)
    (pstart.zip pend).map (fun se => (some se.1, some se.2))

/-! ## `get_burst` (lfp.py)

Same skeleton with a 0.5 s gap, `int(0.05*srate)` windows, below-threshold
scans, and crucially no `try/except` around `pstart = p[start]`: with no
detected peaks the fancy index `p[[0]]` raises `IndexError`. -/
def get_burst (data : List ℚ) (highthr lowthr : ℚ) (srate : Nat) :
    Except String (List (Int × Int)) :=
  let p := findPeaks data highthr
  let idx := (List.range (p.length - 1)).filter
    (fun i => decide (2 * ((p.getD (i + 1) 0 : Int) - (p.getD i 0 : Int)) > (srate : Int)))
  if p.isEmpty then
    .error "IndexError"
  else
    let w : Nat := 50 * srate / 1000
    let pstart := ((0 :: idx.map (· + 1)).map (fun j => p.getD j 0)).map (fun x =>
      let tmp := pySliceRev data x ((x : Int) - w)
      match tmp.findIdx? (fun v => decide (v < lowthr)) with
      | some j => (x : Int) - j
      | none => (x : Int))
    let pend := ((idx ++ [p.length - 1]).map (fun j => p.getD j 0)).map (fun x =>
      let tmp := pySlice data x ((x : Int) + w)
      match tmp.findIdx? (fun v => decide (v < lowthr)) with
      | some j => (x : Int) + j
      | none => (x : Int))
    .ok (pstart.zip pend)

/-! ## Facade construction with no input signal -/

/-- The fields `burstcounter.Burst.__init__` assigns when `channel is None`.
`np.empty((1, 2))` allocates one row of two uninitialised doubles; the
indeterminate entries are modelled as `none`. -/
structure BurstState where
  _burst : List (Option Int × Option Int)
  wband : List ℚ
  bpass : List ℚ
  rms : List ℚ

/-- `burstcounter.Burst(channel=None)`: `self._burst = np.empty((1,2))`,
`self.wband = []`, `self.bpass = []`, `self.rms = []`. -/
def Burst_init_none : BurstState :=
  { _burst := [(none, none)], wband := [], bpass := [], rms := [] }

/-- `lfp.Burst(data=None)`: `self.idx = []`. -/
def lfpBurst_init_none : List (Int × Int) := []

/-- `scipy.signal.filtfilt`'s input-length guard: with the default
`padlen = 3 * max(len(a), len(b))`, an input of `padlen` samples or fewer
raises `ValueError` ("The length of the input vector x must be greater
than padlen").  The numeric filter output plays no part in any claim;
the input list is passed through as a length-preserving placeholder. -/
def filtfilt_guard (padlen : Nat) (x : List ℚ) : Except String (List ℚ) :=
  if x.length ≤ padlen then .error "ValueError" else .ok x

/-- First scipy stage of `lfp.Burst.__init__` when a signal is given:
`band_pass(data, 90/Nyquist, 250/Nyquist)` builds a 4th-order Butterworth
band-pass (9 numerator and 9 denominator taps) and calls `filtfilt`,
whose default `padlen` is `3 * 9 = 27`; the constructor therefore raises
before computing any burst whenever the signal has 27 samples or fewer —
in particular on a zero-length signal. -/
def lfpBurst_init_filter (data : List ℚ) : Except String (List ℚ) :=
  filtfilt_guard 27 data

/-- First scipy stage of `burstcounter.Burst.__init__` when a signal is
given: `self.wband = lfp.decimate(channel, q=60)` runs
`scipy.signal.decimate` with `ftype='fir'`, whose default
`zero_phase=True` calls `filtfilt` with a `firwin(20*60 + 1)` kernel, so
`padlen = 3 * 1201 = 3603`; the constructor therefore raises before
computing any burst whenever the signal has 3603 samples or fewer — in
particular on a zero-length signal.  (Even without this stage, the next
line's `lfp.band_pass(channel, 90, 250)` would raise on a zero-length
signal with `padlen = 27`, as in `lfp.Burst`.) -/
def burstcounterBurst_init_filter (channel : List ℚ) : Except String (List ℚ) :=
  filtfilt_guard 3603 channel

/-! ## `Burst.__getitem__` (burstcounter.py) -/

/-- NumPy row indexing on axis length `n`: a negative index has `n` added
once; the result must land in `[0, n)` or `IndexError` is raised. -/
def npRowIndex (n : Nat) (i : Int) : Option Nat :=
  let j := if i < 0 then i + n else i
  if 0 ≤ j ∧ j < n then some j.toNat else none

/-- `Burst.__getitem__`: `try: return self._burst[index] except IndexError:
return np.full(2, np.nan)`.  `none` models the `(nan, nan)` fallback row. -/
def burstGetItem (rows : List (Int × Int)) (i : Int) : Option (Int × Int) :=
  match npRowIndex rows.length i with
  | some j => some (rows.getD j (0, 0))
  | none => none

/-! ## `rms` (lfp.py) and `LFP.rms` (lfpmanager.py)

`np.sqrt(np.convolve(data**2, np.ones(segment)/segment))`; voltages are
IEEE doubles, modelled by `Float` (only lengths and error behaviour are
claimed, neither depends on rounding; the accumulation order of the
convolution sum is unspecified). -/

/-- `np.convolve(a, v)` in the default `full` mode: output bin `n` is
`sum_k a[k] * v[n-k]` for `n = 0, ..., len(a)+len(v)-2`. -/
def convolveFull (a v : List Float) : List Float :=
  (List.range (a.length + v.length - 1)).map fun n =>
    ((List.range (n + 1)).map fun k => a.getD k 0 * v.getD (n - k) 0).sum

/-- `rms(data, segment)`.  `np.convolve` raises `ValueError` when either
operand is empty (`"v cannot be empty"`), hence the `Except`. -/
def rms (data : List Float) (segment : Nat) : Except String (List Float) :=
  if data.isEmpty || segment == 0 then
    .error "ValueError"
  else
    .ok ((convolveFull (data.map fun x => x * x)
      (List.replicate segment (1.0 / segment.toFloat))).map Float.sqrt)

/-! ## `fourier_spectrum` (lfp.py / lfpmanager.py)

`fcoeff = np.fft.fft(data)/data.size` is a complex transcendental function
of the samples; what the claims constrain is how its magnitudes are scaled
and paired with the frequency axis.  The embedding therefore takes the
magnitude list `mag` (with `mag[k]` standing for `|fft(data)[k]| / N`,
`mag.length = N = data.size`) as input and performs the rest of the body
exactly: the DC bin is kept as is, every later bin is doubled, the
frequency axis is `np.linspace(0, Nyquist, N//2 + 1)` (modelled by its
exact rational grid points), and `hz[:int(fmax/dhz)]` truncates with
Python `int()` (truncation toward zero) and Python slice semantics.
`dhz = hz[1]` is read unconditionally, so `N <= 1` raises `IndexError`
(for `N = 0` NumPy's `fft` itself raises even earlier). -/

/-- Frequency axis `np.linspace(0, srate/2, N//2 + 1)`:
point `i` is `i * (Nyquist / (N//2))`.  For `N//2 = 0` the rational
convention `x / 0 = 0` gives the single point `0`, which is exactly
`np.linspace(0, Nyquist, 1) = [0.]`. -/
def fsHz (N : Nat) (srate : ℚ) : List ℚ :=
  (List.range (N / 2 + 1)).map fun (i : Nat) => (i : ℚ) * ((srate / 2) / ((N / 2 : Nat) : ℚ))

/-- `amp = np.concatenate(([abs(fcoeff[0])], 2*np.abs(fcoeff[1:])))`. -/
def fsAmp (mag : List ℚ) : List ℚ :=
  match mag with
  | [] => []
  | m0 :: rest => m0 :: rest.map (fun x => 2 * x)

/-- Python `int()` applied to an exact rational: truncation toward zero. -/
def pyInt (q : ℚ) : Int :=
  Int.tdiv q.num q.den

def fourier_spectrum (mag : List ℚ) (srate : ℚ) (fmax : Option ℚ) :
    Except String (List ℚ × List ℚ) :=
  let N := mag.length
  let amp := fsAmp mag
  let hz := fsHz N srate
  if 2 ≤ hz.length then
    let dhz := hz.getD 1 0
    let hz2 := match fmax with
      | some f => pySlice hz 0 (pyInt (f / dhz))
      | none => hz
    .ok (hz2, amp.take hz2.length)
  else
    .error "IndexError"

/-! ## `scipy.integrate.simps` and band power (lfp.py, `Power`)

`simps(y, dx=dx)` on a 1-D array, `even='avg'` (the default):
odd sample counts use the composite Simpson rule; even counts average the
two schemes "Simpson on all but the first/last interval plus a trapezoid
on that interval"; a zero-length array raises `IndexError` at `y[-1]`. -/

/-- `_basic_simpson(y, start, stop, None, dx, 0)`: sums
`dx/3 * (y[start:stop:2] + 4*y[start+1:stop+1:2] + y[start+2:stop+2:2])`.
In every call `scipy` makes, the three slices either have equal lengths or
one of them is empty (NumPy broadcasting with a size-0 axis yields an
empty result), so the termwise sum runs over the minimum length. -/
def basicSimpson (y : List ℚ) (start stop : Int) (dx : ℚ) : ℚ :=
  let s0 := pySlice2 y start stop
  let s1 := pySlice2 y (start + 1) (stop + 1)
  let s2 := pySlice2 y (start + 2) (stop + 2)
  let L := min (min s0.length s1.length) s2.length
  ((List.range L).map
    (fun i => dx / 3 * (s0.getD i 0 + 4 * s1.getD i 0 + s2.getD i 0))).sum

/-- `scipy.integrate.simps(y, dx=dx)` with the default `even='avg'`. -/
def simps (y : List ℚ) (dx : ℚ) : Except String ℚ :=
  let N := y.length
  if N % 2 == 0 then
    if N == 0 then
      .error "IndexError"
    else
      let val := (dx / 2 * (y.getD (N - 1) 0 + y.getD (N - 2) 0) +
        dx / 2 * (y.getD 1 0 + y.getD 0 0)) / 2
      let result := (basicSimpson y 0 ((N : Int) - 3) dx +
        basicSimpson y 1 ((N : Int) - 2) dx) / 2
      .ok (result + val)
  else
    .ok (basicSimpson y 0 ((N : Int) - 2) dx)

/-- Boolean-mask selection `ps[np.logical_and(freq >= lo, freq <= hi)]`
(the two arrays have equal length in every use). -/
def maskSelect (freq ps : List ℚ) (lo hi : ℚ) : List ℚ :=
  ((freq.zip ps).filter (fun fp => decide (lo ≤ fp.1 ∧ fp.1 ≤ hi))).map (·.2)

/-- Band-power integration as `Power.get_delta` / `Power.__init__` perform
it: `simps(ps[mask], dx=freq[1])`.  (When `freq` has fewer than two
entries Python would raise at `freq[1]`; the embedding reads the spacing
with `getD`, no claim exercises that case.) -/
def bandPower (freq ps : List ℚ) (lo hi : ℚ) : Except String ℚ :=
  simps (maskSelect freq ps lo hi) (freq.getD 1 0)

/-- `Power.get_delta(freq, ps)`: the absolute delta power (1-4 Hz band) and
its ratio to the 0-100 Hz band power. -/
def get_delta (freq ps : List ℚ) : Except String (ℚ × ℚ) := do
  let rdelta ← bandPower freq ps 1 4
  let rband ← bandPower freq ps 0 100
  return (rdelta, rdelta / rband)

/-- Composite Simpson rule over an odd-length sample list, written directly
from the textbook formula (used to check `basicSimpson`'s slice machinery). -/
def simpsonOddSum (y : List ℚ) (dx : ℚ) : ℚ :=
  ((List.range ((y.length - 1) / 2)).map
    (fun k => dx / 3 * (y.getD (2 * k) 0 + 4 * y.getD (2 * k + 1) 0 +
      y.getD (2 * k + 2) 0))).sum

/-! ## Spec-side definitions (from the spec's words, for comparison) -/

/-- Modelled from the spec: boundary refinement of a burst start, "scan
backward up to a fixed window for the earliest point where the envelope
rises above `low_threshold`; if found, shift the start to that point; if
not found within the window, leave the start unchanged." -/
def specRefineStart (rms : List ℚ) (lowthr : ℚ) (wb x : Nat) : Int :=
  match ((List.range x).drop (x - wb)).filter (fun j => decide (lowthr < rms.getD j 0)) with
  | [] => x
  | j :: _ => j

/-- Modelled from the spec: boundary refinement of a burst end, "scan
forward up to a fixed window for the latest point where the envelope is
still above `low_threshold`; shift the end accordingly, else leave
unchanged." -/
def specRefineEnd (rms : List ℚ) (lowthr : ℚ) (wf x : Nat) : Int :=
  match (((List.range (x + wf + 1)).drop (x + 1)).filter
      (fun j => decide (lowthr < rms.getD j 0))).getLast? with
  | some j => j
  | none => x

/-- Modelled from the spec: `fmax` truncation as the claim words it, "keep
exactly those frequency bins whose frequency is less than or equal to
fmax". -/
def specTruncate (hz : List ℚ) (fmax : ℚ) : List ℚ :=
  hz.filter (fun x => decide (x ≤ fmax))

/-! # Helper lemmas -/

instance exceptDecEq {ε α : Type} [DecidableEq ε] [DecidableEq α] :
    DecidableEq (Except ε α) := fun x y =>
  match x, y with
  | .ok a, .ok b =>
    if h : a = b then isTrue (by rw [h]) else isFalse (by simp [h])
  | .error a, .error b =>
    if h : a = b then isTrue (by rw [h]) else isFalse (by simp [h])
  | .ok _, .error _ => isFalse (by simp)
  | .error _, .ok _ => isFalse (by simp)

theorem stride2Aux_spec : ∀ (fuel : Nat) (e s : Int), (e - s).toNat ≤ fuel →
    stride2Aux e fuel s =
      (List.range (((e - s).toNat + 1) / 2)).map (fun (i : Nat) => s + 2 * (i : Int)) := by
  intro fuel
  induction fuel with
  | zero =>
    intro e s h
    have h0 : (e - s).toNat = 0 := Nat.le_zero.mp h
    rw [h0]
    rfl
  | succ n ih =>
    intro e s h
    by_cases hlt : s < e
    · have hd : 1 ≤ (e - s).toNat := by omega
      have hrec : (e - (s + 2)).toNat ≤ n := by omega
      have hcount : ((e - s).toNat + 1) / 2 = ((e - (s + 2)).toNat + 1) / 2 + 1 := by
        omega
      rw [stride2Aux, if_pos hlt, ih e (s + 2) hrec, hcount,
        List.range_succ_eq_map]
      simp only [List.map_cons, List.map_map]
      refine congrArg₂ List.cons ?_ ?_
      · push_cast
        ring
      · apply List.map_congr_left
        intro i _
        simp only [Function.comp_apply]
        push_cast
        ring
    · have h0 : (e - s).toNat = 0 := by omega
      rw [stride2Aux, if_neg hlt, h0]
      rfl

theorem stride2_spec (s e : Int) :
    stride2 s e = (List.range (((e - s).toNat + 1) / 2)).map (fun (i : Nat) => s + 2 * (i : Int)) :=
  stride2Aux_spec _ e s le_rfl

theorem getD_map_range (c : Nat) (g : Nat → ℚ) (i : Nat) (h : i < c) :
    ((List.range c).map g).getD i 0 = g i := by
  rw [List.getD_eq_getElem?_getD, List.getElem?_map, List.getElem?_range h]
  rfl

/-- `pySlice2` with in-range natural bounds is the step-2 subsequence. -/
theorem pySlice2_natCast (y : List ℚ) (a b : Nat)
    (ha : a ≤ y.length) (hb : b ≤ y.length) :
    pySlice2 y (a : Int) (b : Int) =
      (List.range ((b - a + 1) / 2)).map (fun i => y.getD (a + 2 * i) 0) := by
  unfold pySlice2
  have hsa : ¬ ((a : Int) < 0) := by omega
  have hsb : ¬ ((b : Int) < 0) := by omega
  have hma : min (a : Int) (y.length : Int) = (a : Int) := by omega
  have hmb : min (b : Int) (y.length : Int) = (b : Int) := by omega
  simp only [if_neg hsa, if_neg hsb, hma, hmb]
  rw [stride2_spec]
  have hT : ((b : Int) - (a : Int)).toNat = b - a := by omega
  rw [hT, List.map_map]
  apply List.map_congr_left
  intro i _
  simp only [Function.comp_apply]
  have hi : ((a : Int) + 2 * (i : Nat)).toNat = a + 2 * i := by omega
  rw [hi]

theorem basicSimpson_odd (y : List ℚ) (dx : ℚ) (h : y.length % 2 = 1) :
    basicSimpson y 0 ((y.length : Int) - 2) dx = simpsonOddSum y dx := by
  rcases Nat.lt_or_ge y.length 3 with h1 | h3
  · -- length = 1
    have hlen : y.length = 1 := by omega
    rcases y with _ | ⟨a, t⟩
    · simp at hlen
    · have ht : t = [] := by
        cases t with
        | nil => rfl
        | cons b u => simp at hlen
      subst ht
      simp only [basicSimpson, pySlice2, simpsonOddSum]
      norm_num [stride2, stride2Aux]
  · -- length ≥ 3 (and odd)
    set N := y.length with hN
    have e0 : (0 : Int) = ((0 : Nat) : Int) := by norm_num
    have e1 : (0 : Int) + 1 = ((1 : Nat) : Int) := by norm_num
    have e2 : (0 : Int) + 2 = ((2 : Nat) : Int) := by norm_num
    have f0 : (N : Int) - 2 = ((N - 2 : Nat) : Int) := by omega
    have f1 : (N : Int) - 2 + 1 = ((N - 1 : Nat) : Int) := by omega
    have f2 : (N : Int) - 2 + 2 = ((N : Nat) : Int) := by omega
    unfold basicSimpson
    rw [e0, f0]
    rw [show ((0 : Nat) : Int) + 1 = ((1 : Nat) : Int) by norm_num,
      show ((0 : Nat) : Int) + 2 = ((2 : Nat) : Int) by norm_num,
      show ((N - 2 : Nat) : Int) + 1 = ((N - 1 : Nat) : Int) by omega,
      show ((N - 2 : Nat) : Int) + 2 = ((N : Nat) : Int) by omega]
    rw [pySlice2_natCast y 0 (N - 2) (by omega) (by omega),
      pySlice2_natCast y 1 (N - 1) (by omega) (by omega),
      pySlice2_natCast y 2 N (by omega) le_rfl]
    have hc0 : N - 2 - 0 + 1 = N - 1 := by omega
    have hc1 : N - 1 - 1 + 1 = N - 1 := by omega
    have hc2 : N - 2 + 1 = N - 1 := by omega
    rw [hc0, hc1, hc2]
    simp only [List.length_map, List.length_range, min_self]
    unfold simpsonOddSum
    rw [← hN]
    have hcount : (N - 1) / 2 = (N - 1) / 2 := rfl
    apply congrArg List.sum
    apply List.map_congr_left
    intro i hi
    rw [List.mem_range] at hi
    rw [getD_map_range _ _ _ hi, getD_map_range _ _ _ hi, getD_map_range _ _ _ hi]
    have g0 : 0 + 2 * i = 2 * i := by omega
    have g1 : 1 + 2 * i = 2 * i + 1 := by omega
    have g2 : 2 + 2 * i = 2 * i + 2 := by omega
    rw [g0, g1, g2]

theorem simps_odd_eq (y : List ℚ) (dx : ℚ) (h : y.length % 2 = 1) :
    simps y dx = Except.ok (simpsonOddSum y dx) := by
  have hb : (y.length % 2 == 0) = false := by simp [h]
  simp only [simps, hb, Bool.false_eq_true, if_false]
  rw [basicSimpson_odd y dx h]

theorem simps_empty (dx : ℚ) : simps [] dx = Except.error "IndexError" := rfl

theorem simps_pair (a b dx : ℚ) : simps [a, b] dx = Except.ok (dx * (a + b) / 2) := by
  unfold simps
  norm_num [basicSimpson, pySlice2, stride2, stride2Aux, List.getD]
  ring

theorem getD_take (l : List ℚ) (L k : Nat) (h : k < L) :
    (l.take L).getD k 0 = l.getD k 0 := by
  rw [List.getD_eq_getElem?_getD, List.getD_eq_getElem?_getD, List.getElem?_take,
    if_pos h]

theorem getD_map_mul2 (r : List ℚ) (k : Nat) :
    (r.map (fun x => 2 * x)).getD k 0 = 2 * r.getD k 0 := by
  rw [List.getD_eq_getElem?_getD, List.getElem?_map, List.getD_eq_getElem?_getD]
  cases h : r[k]? with
  | none => simp
  | some v => simp

theorem fsHz_length (N : Nat) (srate : ℚ) : (fsHz N srate).length = N / 2 + 1 := by
  simp [fsHz]

theorem fsHz_getD (N : Nat) (srate : ℚ) (i : Nat) (h : i < N / 2 + 1) :
    (fsHz N srate).getD i 0 = (i : ℚ) * ((srate / 2) / ((N / 2 : Nat) : ℚ)) := by
  unfold fsHz
  exact getD_map_range _ _ _ h

theorem fsHz_pairwise (N : Nat) (srate : ℚ) (hs : 0 < srate) (hN : 2 ≤ N) :
    List.Pairwise (· < ·) (fsHz N srate) := by
  have h1 : (0 : ℚ) < ((N / 2 : Nat) : ℚ) := by
    have : 1 ≤ N / 2 := by omega
    exact_mod_cast Nat.lt_of_lt_of_le Nat.zero_lt_one this
  have hc : 0 < (srate / 2) / ((N / 2 : Nat) : ℚ) :=
    div_pos (by linarith) h1
  unfold fsHz
  refine (List.pairwise_map).mpr ?_
  refine List.Pairwise.imp ?_ (List.pairwise_lt_range _)
  intro a b hab
  exact mul_lt_mul_of_pos_right (by exact_mod_cast hab) hc

theorem fsAmp_length (mag : List ℚ) : (fsAmp mag).length = mag.length := by
  cases mag <;> simp [fsAmp]

theorem pySlice_zero_nonneg {α : Type} (l : List α) (b : Int) (hb : 0 ≤ b) :
    pySlice l 0 b = l.take b.toNat := by
  unfold pySlice
  have h1 : ¬ ((0 : Int) < 0) := by omega
  have h2 : ¬ (b < 0) := by omega
  have h3 : min (0 : Int) (l.length : Int) = 0 := by omega
  simp only [if_neg h1, if_neg h2, h3, Int.toNat_zero, List.drop_zero, Int.sub_zero]
  rcases le_or_lt b (l.length : Int) with h | h
  · rw [min_eq_left h]
  · rw [min_eq_right (le_of_lt h)]
    rw [show ((l.length : Int)).toNat = l.length from by omega]
    rw [List.take_length, List.take_of_length_le (by omega)]

theorem filter_range_lt (m t : Nat) :
    (List.range m).filter (fun i => decide (i < t)) = List.range (min m t) := by
  induction m with
  | zero => simp
  | succ n ih =>
    rw [List.range_succ, List.filter_append, ih]
    by_cases h : n < t
    · rw [show min (n + 1) t = min n t + 1 from by omega, List.range_succ,
        show min n t = n from by omega]
      simp [h]
    · rw [show min (n + 1) t = min n t from by omega]
      simp [h]

theorem pyInt_floor (q : ℚ) (hq : 0 ≤ q) : pyInt q = ⌊q⌋ := by
  unfold pyInt
  rw [Rat.floor_def]
  exact Int.tdiv_eq_ediv (Rat.num_nonneg.mpr hq) (by positivity)

/-- A Python slice `l[a:b]` with natural bounds, `b` in range, `a ≤ b`. -/
theorem pySlice_natCast (l : List ℚ) (a b : Nat) (hab : a ≤ b) (hb : b ≤ l.length) :
    pySlice l (a : Int) (b : Int) = (l.drop a).take (b - a) := by
  unfold pySlice
  have h1 : ¬ ((a : Int) < 0) := by omega
  have h2 : ¬ ((b : Int) < 0) := by omega
  have h3 : min (a : Int) (l.length : Int) = (a : Int) := by omega
  have h4 : min (b : Int) (l.length : Int) = (b : Int) := by omega
  simp only [if_neg h1, if_neg h2, h3, h4]
  rw [show ((a : Int)).toNat = a from by omega,
    show ((b : Int) - (a : Int)).toNat = b - a from by omega]

/-- The value window `l[a:b]` is the value map over the index window. -/
theorem window_map (l : List ℚ) (a b : Nat) (hab : a ≤ b) (hb : b ≤ l.length) :
    (l.drop a).take (b - a) = ((List.range b).drop a).map (fun j => l.getD j 0) := by
  apply List.ext_getElem
  · simp only [List.length_take, List.length_drop, List.length_map, List.length_range]
    omega
  · intro i h1 h2
    simp only [List.length_take, List.length_drop] at h1
    have hi : i < b - a := by omega
    have hia : a + i < l.length := by omega
    rw [List.getElem_take, List.getElem_drop, List.getElem_map, List.getElem_drop,
      List.getElem_range]
    exact (List.getD_eq_getElem l 0 hia).symm

/-- When `findIdx?` finds a match at position `i`, that position is in
range and the matched element heads the filtered list. -/
theorem findIdx?_some_head {α : Type} (d : α) : ∀ (l : List α) (q : α → Bool) (i : Nat),
    l.findIdx? q = some i → i < l.length ∧ (l.filter q).head? = some (l.getD i d) := by
  intro l
  induction l with
  | nil =>
    intro q i h
    exact Option.noConfusion h
  | cons a t ih =>
    intro q i h
    rw [List.findIdx?_cons] at h
    by_cases hq : q a = true
    · rw [if_pos hq] at h
      injection h with h'
      subst h'
      refine ⟨by simp, ?_⟩
      rw [List.filter_cons, if_pos hq]
      rfl
    · rw [if_neg hq, List.findIdx?_succ] at h
      cases hj : t.findIdx? q with
      | none =>
        rw [hj] at h
        simp at h
      | some j =>
        rw [hj] at h
        simp only [Option.map_some', Option.some.injEq] at h
        obtain ⟨hlt, hhd⟩ := ih q j hj
        subst h
        refine ⟨by simp only [List.length_cons]; omega, ?_⟩
        rw [List.filter_cons, if_neg hq, List.getD_cons_succ]
        exact hhd

/-- A Python reversed slice `l[a:b:-1]` with natural bounds, `b ≤ a`,
`a` in range. -/
theorem pySliceRev_natCast (l : List ℚ) (a b : Nat) (hba : b ≤ a) (ha : a < l.length) :
    pySliceRev l (a : Int) (b : Int) = ((l.drop (b + 1)).take (a - b)).reverse := by
  unfold pySliceRev
  have h1 : ¬ ((a : Int) < 0) := by omega
  have h2 : ¬ ((b : Int) < 0) := by omega
  have h3 : min (a : Int) ((l.length : Int) - 1) = (a : Int) := by omega
  have h4 : min (b : Int) ((l.length : Int) - 1) = (b : Int) := by omega
  simp only [if_neg h1, if_neg h2, h3, h4]
  rw [show ((b : Int) + 1).toNat = b + 1 from by omega,
    show ((a : Int) - (b : Int)).toNat = a - b from by omega]

theorem plateauEnd_ge (x : List ℚ) (iMax : Nat) (v : ℚ) :
    ∀ fuel j, j ≤ plateauEnd x iMax v fuel j := by
  intro fuel
  induction fuel with
  | zero => intro j; exact le_refl j
  | succ n ih =>
    intro j
    show j ≤ if j < iMax ∧ x.getD j 0 = v then plateauEnd x iMax v n (j + 1) else j
    by_cases h : j < iMax ∧ x.getD j 0 = v
    · rw [if_pos h]
      exact le_trans (by omega) (ih (j + 1))
    · rw [if_neg h]

theorem plateauEnd_le (x : List ℚ) (iMax : Nat) (v : ℚ) :
    ∀ fuel j, j ≤ iMax → plateauEnd x iMax v fuel j ≤ iMax := by
  intro fuel
  induction fuel with
  | zero => intro j hj; exact hj
  | succ n ih =>
    intro j hj
    show (if j < iMax ∧ x.getD j 0 = v then plateauEnd x iMax v n (j + 1) else j) ≤ iMax
    by_cases h : j < iMax ∧ x.getD j 0 = v
    · rw [if_pos h]
      exact ih (j + 1) (by omega)
    · rw [if_neg h]
      exact hj

theorem lmAux_mem_bounds (x : List ℚ) (iMax : Nat) :
    ∀ fuel i m, m ∈ lmAux x iMax fuel i → i ≤ m ∧ m < iMax := by
  intro fuel
  induction fuel with
  | zero => intro i m h; exact absurd h (List.not_mem_nil m)
  | succ n ih =>
    intro i m h
    simp only [lmAux] at h
    by_cases h1 : i < iMax
    · rw [if_pos h1] at h
      by_cases h2 : x.getD (i - 1) 0 < x.getD i 0
      · rw [if_pos h2] at h
        have hge : i + 1 ≤ plateauEnd x iMax (x.getD i 0) x.length (i + 1) :=
          plateauEnd_ge x iMax _ x.length (i + 1)
        have hle : plateauEnd x iMax (x.getD i 0) x.length (i + 1) ≤ iMax :=
          plateauEnd_le x iMax _ x.length (i + 1) (by omega)
        by_cases h3 :
            x.getD (plateauEnd x iMax (x.getD i 0) x.length (i + 1)) 0 < x.getD i 0
        · rw [if_pos h3] at h
          rcases List.mem_cons.mp h with heq | hmem
          · subst heq
            omega
          · have := ih _ m hmem
            omega
        · rw [if_neg h3] at h
          have := ih _ m h
          omega
      · rw [if_neg h2] at h
        have := ih _ m h
        omega
    · rw [if_neg h1] at h
      exact absurd h (List.not_mem_nil m)

theorem lmAux_pairwise (x : List ℚ) (iMax : Nat) :
    ∀ fuel i, List.Pairwise (· < ·) (lmAux x iMax fuel i) := by
  intro fuel
  induction fuel with
  | zero => intro i; exact List.Pairwise.nil
  | succ n ih =>
    intro i
    simp only [lmAux]
    by_cases h1 : i < iMax
    · rw [if_pos h1]
      by_cases h2 : x.getD (i - 1) 0 < x.getD i 0
      · rw [if_pos h2]
        have hge : i + 1 ≤ plateauEnd x iMax (x.getD i 0) x.length (i + 1) :=
          plateauEnd_ge x iMax _ x.length (i + 1)
        by_cases h3 :
            x.getD (plateauEnd x iMax (x.getD i 0) x.length (i + 1)) 0 < x.getD i 0
        · rw [if_pos h3]
          refine List.pairwise_cons.mpr ⟨?_, ih _⟩
          intro m hm
          have := (lmAux_mem_bounds x iMax n _ m hm).1
          omega
        · rw [if_neg h3]
          exact ih _
      · rw [if_neg h2]
        exact ih _
    · rw [if_neg h1]
      exact List.Pairwise.nil

theorem findPeaks_sorted (x : List ℚ) (h : ℚ) :
    List.Pairwise (· < ·) (findPeaks x h) :=
  List.Pairwise.filter _ (lmAux_pairwise x (x.length - 1) x.length 1)

theorem findPeaks_lt_length (x : List ℚ) (h : ℚ) :
    ∀ m ∈ findPeaks x h, m < x.length := by
  intro m hm
  have hmem := (List.mem_filter.mp hm).1
  have := lmAux_mem_bounds x (x.length - 1) x.length 1 m hmem
  omega

theorem gapIdx_pairwise (p : List Nat) (srate : Nat) :
    List.Pairwise (· < ·) (gapIdx p srate) :=
  List.Pairwise.filter _ (List.pairwise_lt_range _)

theorem gapIdx_lt (p : List Nat) (srate : Nat) :
    ∀ i ∈ gapIdx p srate, i < p.length - 1 := by
  intro i hi
  exact List.mem_range.mp (List.mem_filter.mp hi).1

theorem startIdxList_lt (p : List Nat) (srate : Nat) (hp : p ≠ []) :
    ∀ j ∈ startIdxList p srate, j < p.length := by
  intro j hj
  have hlen : 0 < p.length := List.length_pos.mpr hp
  rcases List.mem_cons.mp hj with rfl | hj'
  · exact hlen
  · obtain ⟨i, hi, rfl⟩ := List.mem_map.mp hj'
    have := gapIdx_lt p srate i hi
    omega

theorem endIdxList_lt (p : List Nat) (srate : Nat) (hp : p ≠ []) :
    ∀ j ∈ endIdxList p srate, j < p.length := by
  intro j hj
  have hlen : 0 < p.length := List.length_pos.mpr hp
  rcases List.mem_append.mp hj with hj' | hj'
  · have := gapIdx_lt p srate j hj'
    omega
  · rw [List.mem_singleton] at hj'
    omega

theorem startIdx_le_endIdx (p : List Nat) (srate : Nat) (hp : p ≠ []) (k : Nat)
    (h1 : k < (startIdxList p srate).length) (h2 : k < (endIdxList p srate).length) :
    (startIdxList p srate).get ⟨k, h1⟩ ≤ (endIdxList p srate).get ⟨k, h2⟩ := by
  have hlen : 0 < p.length := List.length_pos.mpr hp
  simp only [List.get_eq_getElem]
  cases k with
  | zero =>
    simp only [startIdxList, List.getElem_cons_zero]
    exact Nat.zero_le _
  | succ j =>
    have hjlen : j < (gapIdx p srate).length := by
      simp only [startIdxList, List.length_cons, List.length_map] at h1
      omega
    have hstart : (startIdxList p srate)[j + 1] = (gapIdx p srate)[j] + 1 := by
      simp only [startIdxList, List.getElem_cons_succ, List.getElem_map]
    rw [hstart]
    by_cases hj2 : j + 1 < (gapIdx p srate).length
    · have hend : (endIdxList p srate)[j + 1] = (gapIdx p srate)[j + 1] := by
        simp only [endIdxList]
        rw [List.getElem_append_left hj2]
      rw [hend]
      have hpw := List.pairwise_iff_getElem.mp (gapIdx_pairwise p srate) j (j + 1)
        hjlen hj2 (by omega)
      omega
    · have hj3 : (gapIdx p srate).length ≤ j + 1 := by omega
      have hend : (endIdxList p srate)[j + 1] = p.length - 1 := by
        simp only [endIdxList]
        rw [List.getElem_append_right hj3]
        exact List.getElem_singleton _ _
      rw [hend]
      have := gapIdx_lt p srate ((gapIdx p srate)[j]) (List.getElem_mem hjlen)
      omega

theorem pairwise_getD_le (p : List Nat) (hs : List.Pairwise (· < ·) p) (i j : Nat)
    (hij : i ≤ j) (hj : j < p.length) : p.getD i 0 ≤ p.getD j 0 := by
  rcases Nat.lt_or_ge i j with h | h
  · have := List.pairwise_iff_getElem.mp hs i j (by omega) hj h
    rw [List.getD_eq_getElem _ _ (by omega), List.getD_eq_getElem _ _ hj]
    omega
  · have : i = j := by omega
    subst this
    exact le_refl _

theorem pySlice_length_le (l : List ℚ) (a b : Int) (hb : 0 ≤ b) :
    (pySlice l a b).length ≤ (b - a).toNat := by
  unfold pySlice
  simp only [List.length_take, List.length_drop]
  split_ifs <;> omega

theorem pySliceRev_length_le (l : List ℚ) (a b : Int) (ha : 0 ≤ a) (hb : 0 ≤ b) :
    (pySliceRev l a b).length ≤ (a - b).toNat := by
  unfold pySliceRev
  simp only [List.length_reverse, List.length_take, List.length_drop]
  split_ifs <;> omega

theorem refineStart_le (rms : List ℚ) (lt : ℚ) (srate : Nat) (x : Nat) :
    refineStart rms lt srate x ≤ (x : Int) := by
  simp only [refineStart]
  cases hf : (pySlice rms ((x : Int) - (150 * srate / 1000 : Nat)) (x : Int)).findIdx?
      (fun v => decide (lt < v)) with
  | none => exact le_refl _
  | some j =>
    have hj := (findIdx?_some_head 0 _ _ j hf).1
    have hlen := pySlice_length_le rms ((x : Int) - (150 * srate / 1000 : Nat)) (x : Int)
      (by omega)
    show (x : Int) - (((150 * srate / 1000 : Nat) : Int) - (j : Int)) ≤ (x : Int)
    omega

theorem refineEnd_ge (rms : List ℚ) (lt : ℚ) (srate : Nat) (x : Nat) :
    (x : Int) ≤ refineEnd rms lt srate x := by
  simp only [refineEnd]
  cases hf : (pySliceRev rms ((x : Int) + (250 * srate / 1000 : Nat)) (x : Int)).findIdx?
      (fun v => decide (lt < v)) with
  | none => exact le_refl _
  | some j =>
    have hj := (findIdx?_some_head 0 _ _ j hf).1
    have hlen := pySliceRev_length_le rms ((x : Int) + (250 * srate / 1000 : Nat)) (x : Int)
      (by omega) (by omega)
    show (x : Int) ≤ (x : Int) + (((250 * srate / 1000 : Nat) : Int) - (j : Int))
    omega

/-! # Theorems -/

/-- C1, counterexample: both scenarios of the claim fail.  The facade
constructed with no input signal (`burstcounter.Burst(channel=None)`)
does not report `len() == 0`: `self._burst = np.empty((1, 2))` holds one
(uninitialised) row, so `len(self._burst) = 1`.  And on a zero-length
input signal neither constructor yields an empty result set without
raising: in both, the first scipy filtering stage raises `ValueError`
(`filtfilt`'s `padlen` check) during construction. -/
theorem C1_counterexample :
    Burst_init_none._burst.length ≠ 0 ∧
    burstcounterBurst_init_filter [] = Except.error "ValueError" ∧
    lfpBurst_init_filter [] = Except.error "ValueError" := by
  refine ⟨by decide, rfl, rfl⟩

/-- C1, amended: the `lfp.Burst` facade constructed with no input signal has
`len() == 0` and an empty-list placeholder, while the `burstcounter.Burst`
facade constructed with no input signal has `len() == 1` (its `_burst`
placeholder `np.empty((1, 2))` holds one row of indeterminate values) and
empty `wband`/`bpass`/`rms` placeholders; neither `None` constructor
raises.  On a zero-length input signal, by contrast, no empty result set
is returned: each constructor raises `ValueError` at its first scipy
filtering stage (`filtfilt`'s `padlen` check: 3603 samples for
`burstcounter.Burst`'s initial `decimate`, 27 for `lfp.Burst`'s initial
`band_pass`). -/
theorem C1_empty_facades :
    lfpBurst_init_none.length = 0 ∧
    Burst_init_none._burst.length = 1 ∧
    Burst_init_none.wband = [] ∧
    Burst_init_none.bpass = [] ∧
    Burst_init_none.rms = [] ∧
    burstcounterBurst_init_filter [] = Except.error "ValueError" ∧
    lfpBurst_init_filter [] = Except.error "ValueError" := by
  refine ⟨rfl, rfl, rfl, rfl, rfl, rfl, rfl⟩

/-- C2, counterexample: on an envelope with no peaks above the high
threshold, `Burst.__long_burst` does not return an empty burst list: the
swallowed `IndexError`s leave `pstart = pend = np.nan` and
`np.column_stack((nan, nan))` is a single row, so the result has length 1;
and `lfp.get_burst` raises `IndexError` outright at `p[start]`. -/
theorem C2_counterexample :
    (long_burst [0, 0, 0] 1 1 500).length ≠ 0 ∧
    long_burst [0, 0, 0] 1 1 500 = [(none, none)] ∧
    get_burst [0, 0, 0] 1 1 500 = Except.error "IndexError" := by
  refine ⟨by decide, by decide, rfl⟩

/-- C2, amended: for every envelope in which peak detection finds zero peaks
above the high threshold, `Burst.__long_burst` returns a single
`(nan, nan)` placeholder row (a collection of length 1, not 0) without
raising, while `lfp.get_burst` raises `IndexError`. -/
theorem C2_no_peaks (data : List ℚ) (highthr lowthr : ℚ) (srate : Nat)
    (h : findPeaks data highthr = []) :
    long_burst data highthr lowthr srate = [(none, none)] ∧
    get_burst data highthr lowthr srate = Except.error "IndexError" := by
  constructor
  · simp [long_burst, h]
  · simp [get_burst, h]

/-- C2, witness for `C2_no_peaks` at a concrete flat envelope. -/
theorem C2_no_peaks_witness :
    long_burst [0, 0, 0] 1 1 500 = [(none, none)] ∧
    get_burst [0, 0, 0] 1 1 500 = Except.error "IndexError" :=
  C2_no_peaks [0, 0, 0] 1 1 500 (by decide)

/-- C6, counterexample: on a zero-length input signal `rms` does not return
an output of length `0 + segment_samples - 1`; `np.convolve` raises
`ValueError` ("cannot be empty"). -/
theorem C6_counterexample : rms [] 3 = Except.error "ValueError" := by
  rfl

/-- C6, amended: for every non-empty input signal of length `N` and every
positive `segment_samples`, `rms` returns
`sqrt(moving_average(signal^2))` computed by full convolution with the
uniform kernel of height `1/segment_samples`, and the output length is
exactly `N + segment_samples - 1`. -/
theorem C6_rms_length (data : List Float) (segment : Nat)
    (hd : data ≠ []) (hs : 0 < segment) :
    ∃ out, rms data segment = Except.ok out ∧
      out = (convolveFull (data.map fun x => x * x)
        (List.replicate segment (1.0 / segment.toFloat))).map Float.sqrt ∧
      out.length = data.length + segment - 1 := by
  have h1 : data.isEmpty = false := by
    cases data with
    | nil => exact absurd rfl hd
    | cons a t => rfl
  have h2 : (segment == 0) = false := by
    cases segment with
    | zero => exact absurd rfl (Nat.ne_of_gt hs)
    | succ n => rfl
  refine ⟨_, by simp [rms, h1, h2], rfl, ?_⟩
  simp [convolveFull]

/-- C6, witness for `C6_rms_length` on a one-sample signal with a
three-sample segment: the output has length `1 + 3 - 1 = 3`. -/
theorem C6_rms_length_witness :
    ∃ out, rms [1.0] 3 = Except.ok out ∧
      out = (convolveFull ([1.0].map fun x => x * x)
        (List.replicate 3 (1.0 / (3 : Nat).toFloat))).map Float.sqrt ∧
      out.length = [1.0].length + 3 - 1 :=
  C6_rms_length [1.0] 3 (by simp) (by decide)

/-- C7, counterexample: `fourier_spectrum` does not return a spectrum for
every non-empty input signal: on a signal of length 1 the frequency axis
`np.linspace(0, Nyquist, 1)` has a single point and the unconditional read
`dhz = hz[1]` raises `IndexError`. -/
theorem C7_counterexample :
    fourier_spectrum [5] 30000 none = Except.error "IndexError" := by
  rfl

/-- C10, counterexample: indexing the `Burst` object at `-1`, an integer
index outside the range `0 ≤ i < len` of detected bursts, does not return
the `(nan, nan)` pair: Python negative indexing resolves `-1` to the last
stored row. -/
theorem C10_counterexample :
    burstGetItem [(2, 5)] (-1) = some (2, 5) ∧ ¬ (0 ≤ (-1 : Int)) := by
  refine ⟨by decide, by decide⟩

/-- C10, amended: `burst[index]` follows Python indexing on the stored rows:
an index in `[0, len)` returns that stored row, an index in `[-len, 0)`
returns the row counted from the end (`len + index`), and only an index
outside `[-len, len)` yields the `(nan, nan)` fallback row (no
`IndexError` escapes). -/
theorem C10_getitem (rows : List (Int × Int)) (i : Int) :
    (0 ≤ i → i < rows.length → burstGetItem rows i = some (rows.getD i.toNat (0, 0))) ∧
    (-(rows.length : Int) ≤ i → i < 0 →
      burstGetItem rows i = some (rows.getD (i + rows.length).toNat (0, 0))) ∧
    ((i < -(rows.length : Int) ∨ (rows.length : Int) ≤ i) →
      burstGetItem rows i = none) := by
  refine ⟨?_, ?_, ?_⟩
  · intro h0 hl
    have hneg : ¬ i < 0 := by omega
    simp [burstGetItem, npRowIndex, hneg, h0, hl]
  · intro hge hneg
    simp only [burstGetItem, npRowIndex, if_pos hneg]
    have h1 : 0 ≤ i + (rows.length : Int) := by omega
    have h2 : i + (rows.length : Int) < (rows.length : Int) := by omega
    simp [h1, h2]
  · intro hout
    rcases hout with h | h
    · have hneg : i < 0 := by omega
      have hlt : ¬ (0 ≤ i + (rows.length : Int)) := by omega
      simp [burstGetItem, npRowIndex, hneg, hlt]
    · have hneg : ¬ i < 0 := by omega
      have : ¬ (0 ≤ i ∧ i < (rows.length : Int)) := by omega
      simp [burstGetItem, npRowIndex, hneg, this]

/-- C10, witness for `C10_getitem`: in-range, negative-in-range and
out-of-range indices on a concrete two-burst store. -/
theorem C10_getitem_witness :
    burstGetItem [(2, 5), (7, 9)] 1 = some ([((2 : Int), (5 : Int)), (7, 9)].getD (1 : Int).toNat (0, 0)) ∧
    burstGetItem [(2, 5), (7, 9)] (-2) =
      some ([((2 : Int), (5 : Int)), (7, 9)].getD ((-2 : Int) + [((2 : Int), (5 : Int)), (7, 9)].length).toNat (0, 0)) ∧
    burstGetItem [(2, 5), (7, 9)] 2 = none :=
  ⟨(C10_getitem [(2, 5), (7, 9)] 1).1 (by decide) (by decide),
   ((C10_getitem [(2, 5), (7, 9)] (-2)).2).1 (by decide) (by decide),
   ((C10_getitem [(2, 5), (7, 9)] 2).2).2 (Or.inr (by decide))⟩

/-- C9, counterexample: a band holding exactly 2 frequency samples (fewer
than 3) does not integrate to 0.0: `scipy.integrate.simps` falls back to
the trapezoid rule there, giving `dx*(y0+y1)/2 = 1`; and a band holding 0
samples raises `IndexError` instead of returning 0.0. -/
theorem C9_counterexample :
    bandPower [0, 1, 2, 3, 4, 5, 6, 7] [1, 1, 1, 1, 1, 1, 1, 1] 1 2 = Except.ok 1 ∧
    (1 : ℚ) ≠ 0 ∧
    (maskSelect [0, 1, 2, 3, 4, 5, 6, 7] [1, 1, 1, 1, 1, 1, 1, 1] 1 2).length = 2 ∧
    bandPower [0, 1, 2, 3, 4, 5, 6, 7] [1, 1, 1, 1, 1, 1, 1, 1] 50 60 =
      Except.error "IndexError" := by
  have hm : maskSelect [0, 1, 2, 3, 4, 5, 6, 7] [1, 1, 1, 1, 1, 1, 1, 1] 1 2 = [1, 1] := by
    decide
  have hm0 : maskSelect [0, 1, 2, 3, 4, 5, 6, 7] [1, 1, 1, 1, 1, 1, 1, 1] 50 60 = [] := by
    decide
  refine ⟨?_, by norm_num, by rw [hm]; rfl, ?_⟩
  · unfold bandPower
    rw [hm, simps_pair]
    norm_num
  · unfold bandPower
    rw [hm0]
    exact simps_empty _

/-- C9, amended: band-power integration `simps(ps[mask], dx=freq[1])`
behaves as follows on a band selecting `k` frequency samples: `k = 0`
raises `IndexError` (not 0.0), `k = 1` returns 0.0, `k = 2` returns the
trapezoidal integral `dx*(y0+y1)/2` (not 0.0), and every odd `k ≥ 3`
returns the composite Simpson's-rule integral (even `k ≥ 4` follows
scipy's averaged first/last-interval variant of Simpson's rule). -/
theorem C9_band_power (freq ps : List ℚ) (lo hi : ℚ) :
    (maskSelect freq ps lo hi = [] →
      bandPower freq ps lo hi = Except.error "IndexError") ∧
    (∀ a, maskSelect freq ps lo hi = [a] → bandPower freq ps lo hi = Except.ok 0) ∧
    (∀ a b, maskSelect freq ps lo hi = [a, b] →
      bandPower freq ps lo hi = Except.ok (freq.getD 1 0 * (a + b) / 2)) ∧
    ((maskSelect freq ps lo hi).length % 2 = 1 →
      bandPower freq ps lo hi =
        Except.ok (simpsonOddSum (maskSelect freq ps lo hi) (freq.getD 1 0))) := by
  refine ⟨?_, ?_, ?_, ?_⟩
  · intro h
    unfold bandPower
    rw [h]
    exact simps_empty _
  · intro a h
    unfold bandPower
    rw [h, simps_odd_eq _ _ (by simp)]
    simp [simpsonOddSum]
  · intro a b h
    unfold bandPower
    rw [h]
    exact simps_pair a b _
  · intro h
    unfold bandPower
    exact simps_odd_eq _ _ h

/-- C9, witness for `C9_band_power`: an odd three-sample band integrates by
Simpson's rule, and an empty band raises. -/
theorem C9_band_power_witness :
    bandPower [0, 1, 2, 3, 4] [1, 2, 3, 2, 1] 1 3 =
      Except.ok (simpsonOddSum (maskSelect [0, 1, 2, 3, 4] [1, 2, 3, 2, 1] 1 3)
        ([0, 1, 2, 3, 4].getD 1 0)) ∧
    bandPower [0, 1, 2, 3, 4] [1, 2, 3, 2, 1] 10 20 = Except.error "IndexError" :=
  ⟨(C9_band_power [0, 1, 2, 3, 4] [1, 2, 3, 2, 1] 1 3).2.2.2 (by decide),
   (C9_band_power [0, 1, 2, 3, 4] [1, 2, 3, 2, 1] 10 20).1 (by decide)⟩

/-- C4: the grouping step partitions the detected peaks into bursts exactly
at the gaps larger than `0.75 * srate` samples (post-decimation rate):
index `j` is a burst-start peak iff `j = 0` (the first detected peak) or
peak `j` immediately follows such a gap, and index `j` is a burst-end peak
iff `j` is the last detected peak or peak `j` immediately precedes such a
gap. -/
theorem C4_grouping (p : List Nat) (srate : Nat) (j : Nat) (hp : p ≠ []) :
    (j ∈ startIdxList p srate ↔
      j < p.length ∧ (j = 0 ∨ (0 < j ∧
        4 * ((p.getD j 0 : Int) - (p.getD (j - 1) 0 : Int)) > 3 * (srate : Int)))) ∧
    (j ∈ endIdxList p srate ↔
      j < p.length ∧ (j + 1 = p.length ∨ (j + 1 < p.length ∧
        4 * ((p.getD (j + 1) 0 : Int) - (p.getD j 0 : Int)) > 3 * (srate : Int)))) := by
  have hlen : 0 < p.length := List.length_pos.mpr hp
  constructor
  · simp only [startIdxList, List.mem_cons, List.mem_map, gapIdx, List.mem_filter,
      List.mem_range, decide_eq_true_eq]
    constructor
    · rintro (rfl | ⟨i, ⟨hi, hc⟩, rfl⟩)
      · exact ⟨hlen, Or.inl rfl⟩
      · refine ⟨by omega, Or.inr ⟨by omega, ?_⟩⟩
        simpa using hc
    · rintro ⟨hj, (rfl | ⟨hpos, hc⟩)⟩
      · exact Or.inl rfl
      · refine Or.inr ⟨j - 1, ⟨by omega, ?_⟩, by omega⟩
        have h1 : j - 1 + 1 = j := by omega
        rw [h1]
        exact hc
  · simp only [endIdxList, List.mem_append, List.mem_singleton, gapIdx, List.mem_filter,
      List.mem_range, decide_eq_true_eq]
    constructor
    · rintro (⟨hi, hc⟩ | rfl)
      · exact ⟨by omega, Or.inr ⟨by omega, hc⟩⟩
      · exact ⟨by omega, Or.inl (by omega)⟩
    · rintro ⟨hj, (h1 | ⟨h1, hc⟩)⟩
      · right
        omega
      · left
        exact ⟨by omega, hc⟩

/-- C4, witness for `C4_grouping`: with peaks at samples 3 and 10 and a
post-decimation rate of 8 samples/s, the gap of 7 samples exceeds
`0.75 * 8 = 6`, so peak index 1 starts a new burst and peak index 0 ends
one. -/
theorem C4_grouping_witness :
    1 ∈ startIdxList [3, 10] 8 ∧ 0 ∈ endIdxList [3, 10] 8 :=
  ⟨((C4_grouping [3, 10] 8 1 (by decide)).1).mpr (by decide),
   ((C4_grouping [3, 10] 8 0 (by decide)).2).mpr (by decide)⟩

/-- C7, amended: for every input signal of length at least 2 (for a
length-1 signal the unconditional read `dhz = hz[1]` raises `IndexError`,
see the counterexample) `fourier_spectrum` returns amplitude `|X[0]|/N` at
bin 0 (not doubled) and `2*|X[k]|/N` at every other bin, with frequencies
evenly spaced from 0 to the Nyquist frequency inclusive at spacing
`Nyquist / floor(N/2)`, a non-negative strictly increasing axis of
`floor(N/2) + 1` points. -/
theorem C7_fourier (mag : List ℚ) (srate : ℚ)
    (h2 : 2 ≤ mag.length) (hs : 0 < srate) :
    ∃ hz amps, fourier_spectrum mag srate none = Except.ok (hz, amps) ∧
      hz.length = mag.length / 2 + 1 ∧
      List.Pairwise (· < ·) hz ∧
      (∀ i, i < hz.length →
        hz.getD i 0 = (i : ℚ) * ((srate / 2) / ((mag.length / 2 : Nat) : ℚ))) ∧
      hz.getD 0 0 = 0 ∧
      hz.getD (mag.length / 2) 0 = srate / 2 ∧
      amps.length = hz.length ∧
      amps.getD 0 0 = mag.getD 0 0 ∧
      (∀ k, 1 ≤ k → k < amps.length → amps.getD k 0 = 2 * mag.getD k 0) := by
  have hlen : (fsHz mag.length srate).length = mag.length / 2 + 1 :=
    fsHz_length mag.length srate
  have hcond : 2 ≤ (fsHz mag.length srate).length := by omega
  have hdiv : (0 : ℚ) < ((mag.length / 2 : Nat) : ℚ) := by
    have : 1 ≤ mag.length / 2 := by omega
    exact_mod_cast Nat.lt_of_lt_of_le Nat.zero_lt_one this
  refine ⟨fsHz mag.length srate, (fsAmp mag).take (fsHz mag.length srate).length,
    ?_, hlen, fsHz_pairwise _ _ hs h2, ?_, ?_, ?_, ?_, ?_, ?_⟩
  · simp only [fourier_spectrum]
    rw [if_pos hcond]
  · intro i hi
    exact fsHz_getD _ _ _ (by omega)
  · rw [fsHz_getD _ _ _ (by omega)]
    norm_num
  · rw [fsHz_getD _ _ _ (by omega), mul_comm]
    exact div_mul_cancel₀ (srate / 2) (ne_of_gt hdiv)
  · rw [List.length_take, fsAmp_length, hlen]
    omega
  · rw [getD_take _ _ _ (by omega)]
    cases mag with
    | nil => simp at h2
    | cons m r => rfl
  · intro k hk1 hk2
    rw [List.length_take, fsAmp_length, hlen] at hk2
    have hkN : k < mag.length / 2 + 1 := by omega
    rw [getD_take _ _ _ (by omega)]
    cases mag with
    | nil => simp at h2
    | cons m r =>
      obtain ⟨k', rfl⟩ : ∃ k', k = k' + 1 := ⟨k - 1, by omega⟩
      show ((fsAmp (m :: r)).getD (k' + 1) 0) = 2 * (m :: r).getD (k' + 1) 0
      have hfa : fsAmp (m :: r) = m :: r.map (fun x => 2 * x) := rfl
      rw [hfa, List.getD_cons_succ, List.getD_cons_succ, getD_map_mul2]

/-- C7, witness for `C7_fourier` at a four-sample signal with sampling rate
8: the axis has `4/2 + 1 = 3` points `0, 2, 4` ending at the Nyquist
frequency 4, the DC amplitude is kept and later bins are doubled. -/
theorem C7_fourier_witness :
    ∃ hz amps, fourier_spectrum [1, 1, 1, 1] 8 none = Except.ok (hz, amps) ∧
      hz.length = [1, 1, 1, 1].length / 2 + 1 ∧
      List.Pairwise (· < ·) hz ∧
      (∀ i, i < hz.length →
        hz.getD i 0 = (i : ℚ) * ((8 / 2) / (([1, 1, 1, 1].length / 2 : Nat) : ℚ))) ∧
      hz.getD 0 0 = 0 ∧
      hz.getD ([1, 1, 1, 1].length / 2) 0 = 8 / 2 ∧
      amps.length = hz.length ∧
      amps.getD 0 0 = [1, 1, 1, 1].getD 0 0 ∧
      (∀ k, 1 ≤ k → k < amps.length → amps.getD k 0 = 2 * [1, 1, 1, 1].getD k 0) :=
  C7_fourier [1, 1, 1, 1] 8 (by decide) (by norm_num)

/-- C8, counterexample: with a 10-sample signal at 20 Hz the frequency axis
is `[0, 2, ..., 10]` with spacing 2; truncation at `fmax = 10` keeps
`hz[:int(10/2)] = hz[:5] = [0, 2, 4, 6, 8]`, dropping the bin at exactly
10 Hz even though `10 ≤ fmax`. -/
theorem C8_counterexample :
    fourier_spectrum (List.replicate 10 (1 : ℚ)) 20 (some 10) =
      Except.ok ([0, 2, 4, 6, 8], [1, 2, 2, 2, 2]) ∧
    (10 : ℚ) ∈ fsHz (List.replicate 10 (1 : ℚ)).length 20 ∧
    (10 : ℚ) ≤ 10 ∧
    ¬ (10 : ℚ) ∈ ([0, 2, 4, 6, 8] : List ℚ) := by
  have hfs : fsHz 10 20 = [0, 2, 4, 6, 8, 10] := by
    unfold fsHz
    rw [show (10 : Nat) / 2 + 1 = 6 from rfl, show List.range 6 = [0, 1, 2, 3, 4, 5] from rfl]
    norm_num
  have hN : (List.replicate 10 (1 : ℚ)).length = 10 := by simp
  refine ⟨?_, ?_, le_refl _, by decide⟩
  · simp only [fourier_spectrum, hN, hfs]
    norm_num
    refine ⟨by decide, ?_⟩
    rw [show pySlice ([0, 2, 4, 6, 8, 10] : List ℚ) 0 (pyInt 5) = [0, 2, 4, 6, 8] from
      by decide]
    rw [show fsAmp (List.replicate 10 (1 : ℚ)) = 1 :: List.replicate 9 (2 * 1) from by
      rw [show List.replicate 10 (1 : ℚ) = 1 :: List.replicate 9 1 from rfl]
      show 1 :: (List.replicate 9 (1 : ℚ)).map (fun x => 2 * x) = _
      rw [List.map_replicate]]
    norm_num
    decide
  · rw [hN, hfs]
    decide

/-- C8, amended: with `fmax` given (and a signal of length at least 2),
`fourier_spectrum` keeps exactly those frequency bins whose successor bin
(one spacing `dhz` higher) is at most `fmax` — equivalently the bins with
index below `int(fmax/dhz)`; a bin lying at exactly `fmax` is dropped.
The amplitudes are truncated to the same length. -/
theorem C8_truncation (mag : List ℚ) (srate f : ℚ)
    (h2 : 2 ≤ mag.length) (hs : 0 < srate) (hf : 0 < f) :
    fourier_spectrum mag srate (some f) =
      Except.ok ((fsHz mag.length srate).filter
          (fun x => decide (x + (srate / 2) / ((mag.length / 2 : Nat) : ℚ) ≤ f)),
        (fsAmp mag).take ((fsHz mag.length srate).filter
          (fun x => decide (x + (srate / 2) / ((mag.length / 2 : Nat) : ℚ) ≤ f))).length) := by
  have hlen : (fsHz mag.length srate).length = mag.length / 2 + 1 :=
    fsHz_length mag.length srate
  have hcond : 2 ≤ (fsHz mag.length srate).length := by omega
  have hdiv : (0 : ℚ) < ((mag.length / 2 : Nat) : ℚ) := by
    have : 1 ≤ mag.length / 2 := by omega
    exact_mod_cast Nat.lt_of_lt_of_le Nat.zero_lt_one this
  have hcpos : 0 < (srate / 2) / ((mag.length / 2 : Nat) : ℚ) :=
    div_pos (by linarith) hdiv
  have hdhz : (fsHz mag.length srate).getD 1 0 =
      (srate / 2) / ((mag.length / 2 : Nat) : ℚ) := by
    rw [fsHz_getD _ _ 1 (by omega)]
    norm_num
  have hratio : (0 : ℚ) ≤ f / ((srate / 2) / ((mag.length / 2 : Nat) : ℚ)) :=
    le_of_lt (div_pos hf hcpos)
  have hfloor : 0 ≤ ⌊f / ((srate / 2) / ((mag.length / 2 : Nat) : ℚ))⌋ :=
    Int.floor_nonneg.mpr hratio
  have key : (fsHz mag.length srate).take
        (⌊f / ((srate / 2) / ((mag.length / 2 : Nat) : ℚ))⌋).toNat =
      (fsHz mag.length srate).filter
        (fun x => decide (x + (srate / 2) / ((mag.length / 2 : Nat) : ℚ) ≤ f)) := by
    unfold fsHz
    rw [List.filter_map]
    have hpg : ((fun x => decide (x + (srate / 2) / ((mag.length / 2 : Nat) : ℚ) ≤ f)) ∘
          (fun (i : Nat) => (i : ℚ) * ((srate / 2) / ((mag.length / 2 : Nat) : ℚ)))) =
        (fun i => decide (i < (⌊f / ((srate / 2) / ((mag.length / 2 : Nat) : ℚ))⌋).toNat)) := by
      funext i
      simp only [Function.comp_apply, decide_eq_decide]
      set c := (srate / 2) / ((mag.length / 2 : Nat) : ℚ) with hc
      have step1 : (i : ℚ) * c + c ≤ f ↔ ((i : ℚ) + 1) * c ≤ f := by
        constructor <;> intro hx <;> linarith [hx]
      have step2 : ((i : ℚ) + 1) * c ≤ f ↔ ((i : ℚ) + 1) ≤ f / c :=
        (le_div_iff₀ hcpos).symm
      have step3 : ((i : ℚ) + 1) ≤ f / c ↔ ((i : Int) + 1) ≤ ⌊f / c⌋ := by
        rw [Int.le_floor]
        push_cast
        exact Iff.rfl
      rw [step1, step2, step3]
      omega
    rw [hpg, filter_range_lt, ← List.map_take, List.take_range, min_comm]
  simp only [fourier_spectrum]
  rw [if_pos hcond, hdhz,
    pyInt_floor _ hratio,
    pySlice_zero_nonneg _ _ hfloor, key]

/-- C8, witness for `C8_truncation` at a four-sample signal, 8 Hz rate and
`fmax = 3`: bins `0` and `2` are kept (their successors `2` and `4` compare
against `fmax` as `2 ≤ 3` and `4 > 3` respectively), the Nyquist bin is
dropped. -/
theorem C8_truncation_witness :
    fourier_spectrum [1, 1, 1, 1] 8 (some 3) =
      Except.ok ((fsHz [1, 1, 1, 1].length 8).filter
          (fun x => decide (x + (8 / 2) / (([1, 1, 1, 1].length / 2 : Nat) : ℚ) ≤ 3)),
        (fsAmp [1, 1, 1, 1]).take ((fsHz [1, 1, 1, 1].length 8).filter
          (fun x => decide (x + (8 / 2) / (([1, 1, 1, 1].length / 2 : Nat) : ℚ) ≤ 3))).length) :=
  C8_truncation [1, 1, 1, 1] 8 3 (by decide) (by norm_num) (by norm_num)

/-- C5, counterexample: both refinement directions deviate from the claim
at the array edges.  Forward: with envelope `[0,0,0,10,6]`, `lowthr = 2`,
rate 8 (forward window `int(0.250*8) = 2`) and the burst-end peak at 3,
the latest above-threshold sample in the window is index 4, but the
reversed slice is clipped to start at the last index and the additive
correction `pend += wf - val[0]` lands at 5 — one past the end of the
array.  Backward: with envelope `[3,10,0]`, rate 500 (backward window
`int(0.150*500) = 75`) and the burst-start peak at 1, the slice
`rms[1-75:1]` wraps and clamps to the non-empty prefix `[rms[0]]`; the
earliest above-threshold sample in the window is index 0, but the
subtractive correction `pstart -= 75 - val[0]` moves the start to −74. -/
theorem C5_counterexample :
    refineEnd [0, 0, 0, 10, 6] 2 8 3 = 5 ∧
    specRefineEnd [0, 0, 0, 10, 6] 2 (250 * 8 / 1000) 3 = 4 ∧
    (5 : Int) ≠ 4 ∧
    refineStart [3, 10, 0] 2 500 1 = -74 ∧
    specRefineStart [3, 10, 0] 2 (150 * 500 / 1000) 1 = 0 ∧
    (-74 : Int) ≠ 0 := by
  refine ⟨by decide, by decide, by decide, by decide, by decide, by decide⟩

/-- C5, amended: whenever the refinement windows lie inside the envelope
(`wb ≤ x ≤ len` backward, `y + wf < len` forward), the code behaves as the
claim states: the start moves to the earliest sample above `low_threshold`
in the backward window `[x-wb, x)` (else stays at `x`), and the end moves
to the latest sample above `low_threshold` in the forward window
`(y, y+wf]` (else stays at `y`).  Outside these hypotheses the claim
fails: when the backward window would start before index 0, the Python
slice wraps — empty for envelopes of at least `wb` samples (start
unchanged even if above-threshold samples precede `x`), but a clamped
non-empty prefix for shorter envelopes, where the subtractive correction
can move the start to a negative index — and when the forward window is
clipped at the array end the computed end overshoots (both in the
counterexample). -/
theorem C5_refinement (rms : List ℚ) (lowthr : ℚ) (srate : Nat) (x y : Nat)
    (hx1 : 150 * srate / 1000 ≤ x) (hx2 : x ≤ rms.length)
    (hy : y + 250 * srate / 1000 < rms.length) :
    refineStart rms lowthr srate x = specRefineStart rms lowthr (150 * srate / 1000) x ∧
    refineEnd rms lowthr srate y = specRefineEnd rms lowthr (250 * srate / 1000) y := by
  constructor
  · -- start refinement
    simp only [refineStart, specRefineStart]
    have hcast : (x : Int) - ((150 * srate / 1000 : Nat) : Int) =
        ((x - 150 * srate / 1000 : Nat) : Int) := by omega
    rw [hcast, pySlice_natCast rms _ x (by omega) hx2,
      window_map rms _ x (by omega) hx2, List.findIdx?_map]
    have hcomp : ((fun v => decide (lowthr < v)) ∘ (fun j => rms.getD j 0)) =
        (fun j : Nat => decide (lowthr < rms.getD j 0)) := rfl
    rw [hcomp]
    have hlen : ((List.range x).drop (x - 150 * srate / 1000)).length =
        150 * srate / 1000 := by
      simp only [List.length_drop, List.length_range]
      omega
    cases hf : ((List.range x).drop (x - 150 * srate / 1000)).findIdx?
        (fun j : Nat => decide (lowthr < rms.getD j 0)) with
    | none =>
      have hnil : ((List.range x).drop (x - 150 * srate / 1000)).filter
          (fun j : Nat => decide (lowthr < rms.getD j 0)) = [] := by
        rw [List.filter_eq_nil_iff]
        intro a ha
        have hfa := (List.findIdx?_eq_none_iff.mp hf) a ha
        simp only [hfa]
        exact Bool.false_ne_true
      rw [hnil]
    | some i =>
      obtain ⟨hlt, hhd⟩ := findIdx?_some_head 0 _ _ i hf
      rw [hlen] at hlt
      have hgd : ((List.range x).drop (x - 150 * srate / 1000)).getD i 0 =
          x - 150 * srate / 1000 + i := by
        rw [List.getD_eq_getElem _ _ (by rw [hlen]; omega), List.getElem_drop,
          List.getElem_range]
      cases hfl : ((List.range x).drop (x - 150 * srate / 1000)).filter
          (fun j : Nat => decide (lowthr < rms.getD j 0)) with
      | nil =>
        rw [hfl] at hhd
        exact absurd hhd (by simp)
      | cons j rest =>
        rw [hfl] at hhd
        simp only [List.head?_cons, Option.some.injEq] at hhd
        show (x : Int) - (((150 * srate / 1000 : Nat) : Int) - (i : Int)) = (j : Int)
        rw [hhd, hgd]
        omega
  · -- end refinement
    simp only [refineEnd, specRefineEnd]
    rw [show (y : Int) + ((250 * srate / 1000 : Nat) : Int) =
        (((y + 250 * srate / 1000 : Nat)) : Int) from by omega,
      pySliceRev_natCast rms _ y (by omega) (by omega)]
    rw [show (y + 250 * srate / 1000) - y = (y + 250 * srate / 1000 + 1) - (y + 1)
        from by omega,
      window_map rms (y + 1) (y + 250 * srate / 1000 + 1) (by omega) (by omega)]
    rw [← List.map_reverse, List.findIdx?_map]
    have hcomp : ((fun v => decide (lowthr < v)) ∘ (fun j => rms.getD j 0)) =
        (fun j : Nat => decide (lowthr < rms.getD j 0)) := rfl
    rw [hcomp]
    rw [List.getLast?_eq_head?_reverse, ← List.filter_reverse]
    have hlen : (((List.range (y + 250 * srate / 1000 + 1)).drop (y + 1)).reverse).length =
        250 * srate / 1000 := by
      simp only [List.length_reverse, List.length_drop, List.length_range]
      omega
    cases hf : (((List.range (y + 250 * srate / 1000 + 1)).drop (y + 1)).reverse).findIdx?
        (fun j : Nat => decide (lowthr < rms.getD j 0)) with
    | none =>
      have hnil : (((List.range (y + 250 * srate / 1000 + 1)).drop (y + 1)).reverse).filter
          (fun j : Nat => decide (lowthr < rms.getD j 0)) = [] := by
        rw [List.filter_eq_nil_iff]
        intro a ha
        have hfa := (List.findIdx?_eq_none_iff.mp hf) a ha
        simp only [hfa]
        exact Bool.false_ne_true
      rw [hnil]
      rfl
    | some i =>
      obtain ⟨hlt, hhd⟩ := findIdx?_some_head 0 _ _ i hf
      rw [hlen] at hlt
      have hgd : (((List.range (y + 250 * srate / 1000 + 1)).drop (y + 1)).reverse).getD i 0 =
          y + 250 * srate / 1000 - i := by
        rw [List.getD_eq_getElem _ _ (by rw [hlen]; omega)]
        rw [List.getElem_reverse]
        rw [List.getElem_drop, List.getElem_range]
        simp only [List.length_drop, List.length_range]
        omega
      cases hfl : (((List.range (y + 250 * srate / 1000 + 1)).drop (y + 1)).reverse).filter
          (fun j : Nat => decide (lowthr < rms.getD j 0)) with
      | nil =>
        rw [hfl] at hhd
        exact absurd hhd (by simp)
      | cons j rest =>
        rw [hfl] at hhd
        simp only [List.head?_cons, Option.some.injEq] at hhd
        show (y : Int) + (((250 * srate / 1000 : Nat) : Int) - (i : Int)) = (j : Int)
        rw [hhd, hgd]
        omega

/-- C5, witness for `C5_refinement`: envelope `[0,3,0,10,0,3,0,0]` at rate
8 (windows 1 back, 2 forward), start candidate 2 and end candidate 3 both
inside the array. -/
theorem C5_refinement_witness :
    refineStart [0, 3, 0, 10, 0, 3, 0, 0] 2 8 2 =
      specRefineStart [0, 3, 0, 10, 0, 3, 0, 0] 2 (150 * 8 / 1000) 2 ∧
    refineEnd [0, 3, 0, 10, 0, 3, 0, 0] 2 8 3 =
      specRefineEnd [0, 3, 0, 10, 0, 3, 0, 0] 2 (250 * 8 / 1000) 3 :=
  C5_refinement [0, 3, 0, 10, 0, 3, 0, 0] 2 8 2 3 (by decide) (by decide) (by decide)

/-- C3, counterexample: `BurstInterval`s returned by `__long_burst` violate
both parts of the claimed invariant.  With envelope `[0,0,0,10,6]`
(thresholds 10 and 2, rate 8) the single burst is `(3, 5)` whose end, 5,
is not within `[0, len(envelope)) = [0, 5)` — the forward refinement
window extended past the end of the array.  With envelope `[0,0,0,10,0]`
the single burst is `(3, 3)`, violating `start < end` for a
single-detected-peak burst. -/
theorem C3_counterexample :
    long_burst [0, 0, 0, 10, 6] 10 2 8 = [(some 3, some 5)] ∧
    ¬ ((5 : Int) < ([0, 0, 0, 10, 6] : List ℚ).length) ∧
    long_burst [0, 0, 0, 10, 0] 10 2 8 = [(some 3, some 3)] ∧
    ¬ ((3 : Int) < (3 : Int)) := by
  refine ⟨by decide, by decide, by decide, by decide⟩

/-- C3, amended: every `(start, end)` row produced from at least one
detected peak satisfies `start ≤ end` (equality occurs for single-peak
bursts with no refinement) and `start < len(envelope)`; the upper bound
`end < len(envelope)` can fail when the forward refinement window is
clipped at the end of the array, and `start ≥ 0` can fail for envelopes
shorter than the backward window. -/
theorem C3_interval_order (rms : List ℚ) (highthr lowthr : ℚ) (srate : Nat) (s e : Int)
    (hmem : (some s, some e) ∈ long_burst rms highthr lowthr srate) :
    s ≤ e ∧ s < (rms.length : Int) := by
  simp only [long_burst] at hmem
  by_cases hp : (findPeaks rms highthr).isEmpty
  · rw [if_pos hp] at hmem
    simp at hmem
  · rw [if_neg hp] at hmem
    have hpne : findPeaks rms highthr ≠ [] := by
      intro hcon
      rw [hcon] at hp
      exact hp rfl
    obtain ⟨⟨a, b⟩, hab, heq⟩ := List.mem_map.mp hmem
    simp only [Prod.mk.injEq, Option.some.injEq] at heq
    obtain ⟨h1, h2⟩ := heq
    subst h1
    subst h2
    obtain ⟨k, hk, hkeq⟩ := List.getElem_of_mem hab
    have hsl : (startIdxList (findPeaks rms highthr) srate).length =
        (gapIdx (findPeaks rms highthr) srate).length + 1 := by
      simp [startIdxList]
    have hel : (endIdxList (findPeaks rms highthr) srate).length =
        (gapIdx (findPeaks rms highthr) srate).length + 1 := by
      simp [endIdxList]
    simp only [List.length_zip, List.length_map] at hk
    have hks : k < (startIdxList (findPeaks rms highthr) srate).length := by omega
    have hke : k < (endIdxList (findPeaks rms highthr) srate).length := by omega
    rw [List.getElem_zip] at hkeq
    simp only [Prod.mk.injEq] at hkeq
    obtain ⟨hka, hkb⟩ := hkeq
    simp only [List.getElem_map] at hka hkb
    have hseq := startIdx_le_endIdx (findPeaks rms highthr) srate hpne k hks hke
    simp only [List.get_eq_getElem] at hseq
    have hslt : (startIdxList (findPeaks rms highthr) srate)[k] <
        (findPeaks rms highthr).length :=
      startIdxList_lt _ _ hpne _ (List.getElem_mem hks)
    have helt : (endIdxList (findPeaks rms highthr) srate)[k] <
        (findPeaks rms highthr).length :=
      endIdxList_lt _ _ hpne _ (List.getElem_mem hke)
    have hpk : (findPeaks rms highthr).getD
          ((startIdxList (findPeaks rms highthr) srate)[k]) 0 ≤
        (findPeaks rms highthr).getD ((endIdxList (findPeaks rms highthr) srate)[k]) 0 :=
      pairwise_getD_le _ (findPeaks_sorted rms highthr) _ _ hseq helt
    have hple : (findPeaks rms highthr).getD
        ((startIdxList (findPeaks rms highthr) srate)[k]) 0 < rms.length := by
      rw [List.getD_eq_getElem _ _ hslt]
      exact findPeaks_lt_length rms highthr _ (List.getElem_mem hslt)
    have hsle : a ≤ ((findPeaks rms highthr).getD
        ((startIdxList (findPeaks rms highthr) srate)[k]) 0 : Int) := by
      rw [← hka]
      exact refineStart_le rms lowthr srate _
    have hege : ((findPeaks rms highthr).getD
        ((endIdxList (findPeaks rms highthr) srate)[k]) 0 : Int) ≤ b := by
      rw [← hkb]
      exact refineEnd_ge rms lowthr srate _
    omega

/-- C3, witness for `C3_interval_order` at the single-peak envelope
`[0,0,0,10,6]`, whose detected interval is `(3, 5)`. -/
theorem C3_interval_order_witness :
    (3 : Int) ≤ 5 ∧ (3 : Int) < (([0, 0, 0, 10, 6] : List ℚ).length : Int) :=
  C3_interval_order [0, 0, 0, 10, 6] 10 2 8 3 5 (by decide)

end Minibrain
